import Mathlib

/-!
Verification of the ontology-mapping cascade engine
(`src/Engine/ontology_mapping_engine.py` of the MetaHarmonizer repository).

The Python source is shallowly embedded below.  Strings are Lean
strings; Python `str.strip()` and `str.lower()` are embedded as
`pyStrip` and `pyLower` over the character list of the string;
pandas cells are `Cell` (NaN, a string, or a non-string value carried
with its stringification, since `astype(str)` is not injective);
pandas DataFrames are `DF` (a column list plus rows of key/cell pairs);
numeric confidence scores are rationals, a non-parseable or missing
score being `Option.none` so that `pd.to_numeric(..., errors =
coerce).fillna(0)` becomes `Option.getD 0`.  The matcher backends are
out of scope for the engine (they are external collaborators), so a
backend invocation is modelled by the table it returns: a flag telling
whether the table has a `top1_score` column, plus at most one output
row per (expanded) query string, which is exactly the backend contract
the engine relies on when it merges backend output back onto its
own query lists.
-/

/-- Characterwise lexicographic comparison by code point, the order
`np.sort` / `np.setdiff1d` use on string arrays. -/
def lexLe : List Char → List Char → Bool
  | [], _ => true
  | _ :: _, [] => false
  | c :: cs, d :: ds => if c = d then lexLe cs ds else decide (c < d)

/-- Lexicographic order on strings (code-point order). -/
def sLe (a b : String) : Prop := lexLe a.data b.data = true

/-- Strict lexicographic order on strings. -/
def sLt (a b : String) : Prop := sLe a b ∧ a ≠ b

instance : DecidableRel sLe := fun a b => by unfold sLe; infer_instance

instance : DecidableRel sLt := fun a b => by unfold sLt; infer_instance

theorem lexLe_total : ∀ a b, lexLe a b = true ∨ lexLe b a = true := by
  intro a b
  induction a generalizing b with
  | nil => left; rfl
  | cons c cs ih =>
    cases b with
    | nil => right; rfl
    | cons d ds =>
      by_cases hcd : c = d
      · subst hcd
        simpa [lexLe] using ih ds
      · rcases lt_or_gt_of_ne hcd with h | h
        · left; simp [lexLe, hcd, h]
        · right
          have hdc : ¬ d = c := fun he => hcd he.symm
          simp [lexLe, hdc, h]

theorem lexLe_antisymm : ∀ a b, lexLe a b = true → lexLe b a = true → a = b := by
  intro a b
  induction a generalizing b with
  | nil =>
    cases b with
    | nil => intro _ _; rfl
    | cons d ds => intro _ h2; simp [lexLe] at h2
  | cons c cs ih =>
    cases b with
    | nil => intro h1 _; simp [lexLe] at h1
    | cons d ds =>
      intro h1 h2
      by_cases hcd : c = d
      · subst hcd
        simp only [lexLe, if_pos rfl] at h1 h2
        rw [ih ds h1 h2]
      · have hdc : ¬ d = c := fun he => hcd he.symm
        simp only [lexLe, if_neg hcd, decide_eq_true_eq] at h1
        simp only [lexLe, if_neg hdc, decide_eq_true_eq] at h2
        exact absurd h2 (lt_asymm h1)

theorem lexLe_trans : ∀ a b c, lexLe a b = true → lexLe b c = true → lexLe a c = true := by
  intro a
  induction a with
  | nil => intro b c _ _; rfl
  | cons x xs ih =>
    intro b c h1 h2
    cases b with
    | nil => simp [lexLe] at h1
    | cons y ys =>
      cases c with
      | nil => simp [lexLe] at h2
      | cons z zs =>
        by_cases hxy : x = y
        · subst hxy
          simp only [lexLe, if_pos rfl] at h1
          by_cases hyz : x = z
          · subst hyz
            simp only [lexLe, if_pos rfl] at h2 ⊢
            exact ih ys zs h1 h2
          · simpa [lexLe, hyz] using h2
        · simp only [lexLe, if_neg hxy, decide_eq_true_eq] at h1
          by_cases hyz : y = z
          · subst hyz
            simpa [lexLe, hxy] using h1
          · simp only [lexLe, if_neg hyz, decide_eq_true_eq] at h2
            have hxz : x < z := lt_trans h1 h2
            simp [lexLe, ne_of_lt hxz, hxz]

theorem sLe_total (a b : String) : sLe a b ∨ sLe b a := lexLe_total a.data b.data

theorem sLe_antisymm (a b : String) (h1 : sLe a b) (h2 : sLe b a) : a = b := by
  have h := lexLe_antisymm a.data b.data h1 h2
  cases a; cases b
  exact congrArg String.mk h

theorem sLe_trans (a b c : String) (h1 : sLe a b) (h2 : sLe b c) : sLe a c :=
  lexLe_trans a.data b.data c.data h1 h2

instance : IsTotal String sLe := ⟨sLe_total⟩

instance : IsTrans String sLe := ⟨sLe_trans⟩

instance : IsAntisymm String sLe := ⟨sLe_antisymm⟩

instance : IsRefl String sLe := ⟨fun a => (lexLe_total a.data a.data).elim id id⟩

/-- Embedding of Python `str.strip()`: drop whitespace from both ends. -/
def pyStrip (s : String) : String :=
  ⟨((s.data.dropWhile Char.isWhitespace).reverse.dropWhile Char.isWhitespace).reverse⟩

/-- Embedding of Python `str.lower()` (characterwise lowering). -/
def pyLower (s : String) : String := ⟨s.data.map Char.toLower⟩

/-- `q.strip().lower()`, the normal form used by `_exact_matching`. -/
def stripLower (s : String) : String := pyLower (pyStrip s)

/-- Embedding of `OntoMapEngine._exact_matching` (source lines 145-155):
the sublist of `query` whose stripped and lowered form occurs among the
stripped and lowered corpus entries.  Duplicates and order of `query`
are preserved, as in the Python list comprehension. -/
def exact_matching (query corpus : List String) : List String :=
  query.filter (fun q => (corpus.map stripLower).contains (stripLower q))

/-- Embedding of `np.setdiff1d a b` on string arrays (source line 265):
the elements of `a` not occurring in `b`, deduplicated and sorted in
ascending code-point lexicographic order. -/
def setdiff1d (a b : List String) : List String :=
  (List.insertionSort sLe (a.filter (fun x => !(b.contains x)))).dedup

theorem mem_setdiff1d (a b : List String) (x : String) :
    x ∈ setdiff1d a b ↔ x ∈ a ∧ x ∉ b := by
  unfold setdiff1d
  rw [List.mem_dedup, (List.perm_insertionSort sLe _).mem_iff, List.mem_filter]
  simp

theorem nodup_setdiff1d (a b : List String) : (setdiff1d a b).Nodup :=
  List.nodup_dedup _

theorem sorted_sLe_setdiff1d (a b : List String) :
    (setdiff1d a b).Sorted sLe :=
  List.Pairwise.sublist (List.dedup_sublist _) (List.sorted_insertionSort sLe _)

theorem sorted_sLt_setdiff1d (a b : List String) :
    (setdiff1d a b).Sorted sLt := by
  have hle := sorted_sLe_setdiff1d a b
  have hnd : (setdiff1d a b).Nodup := nodup_setdiff1d a b
  exact (List.Pairwise.and hle hnd).imp (fun h => ⟨h.1, h.2⟩)

/-- `setdiff1d` only depends on the sets of elements of its arguments:
two calls whose arguments have the same members give the same list. -/
theorem setdiff1d_ext (a a' b b' : List String)
    (ha : ∀ x, x ∈ a ↔ x ∈ a') (hb : ∀ x, x ∈ b ↔ x ∈ b') :
    setdiff1d a b = setdiff1d a' b' := by
  have hmem : ∀ x, x ∈ setdiff1d a b ↔ x ∈ setdiff1d a' b' := by
    intro x
    rw [mem_setdiff1d, mem_setdiff1d, ha, hb]
  have hperm : List.Perm (setdiff1d a b) (setdiff1d a' b') :=
    (List.perm_ext_iff_of_nodup (nodup_setdiff1d a b) (nodup_setdiff1d a' b')).mpr hmem
  exact List.eq_of_perm_of_sorted hperm (sorted_sLe_setdiff1d a b) (sorted_sLe_setdiff1d a' b')

/-- A pandas cell: NaN (`null`), a string value (`str s`), or a
non-string value (`raw s`: an int, float or other object whose
`str()` / `astype(str)` rendering is `s`).  `dropna` and
`drop_duplicates` compare raw cell values, so `raw s` and `str s` are
distinct cells, while `astype(str)` sends both to the string `s`:
stringification is not injective, as in pandas (e.g. the int `1` and
the string `1` are different values with the same rendering). -/
inductive Cell where
  | null : Cell
  | str (s : String) : Cell
  | raw (s : String) : Cell
deriving DecidableEq

/-- `astype(str)` on one cell: pandas renders NaN as the string nan and
a non-string value as its string rendering. -/
def cellToStr : Cell → String
  | Cell.null => ("nan")
  | Cell.str s => s
  | Cell.raw s => s

/-- A DataFrame row: column name / cell pairs. -/
abbrev Row := List (String × Cell)

/-- Reading column `c` of a row; a column missing from the row reads as
null (NaN), as in pandas. -/
def getCol (r : Row) (c : String) : Cell :=
  ((r.find? (fun p => decide (p.1 = c))).map Prod.snd).getD Cell.null

/-- Column assignment `df[c] = v` at row level: replaces the value under
an existing column, appends the column otherwise. -/
def setCol (r : Row) (c : String) (v : Cell) : Row :=
  if r.any (fun p => decide (p.1 = c)) then
    r.map (fun p => if p.1 = c then (c, v) else p)
  else r ++ [(c, v)]

/-- A pandas DataFrame: the column list plus the rows. -/
structure DF where
  cols : List String
  rows : List Row
deriving DecidableEq


theorem find?_map_set_self (r : Row) (c : String) (v : Cell) :
    List.find? (fun p => decide (p.1 = c)) (r.map (fun p => if p.1 = c then (c, v) else p)) =
      (List.find? (fun p => decide (p.1 = c)) r).map (fun _ => (c, v)) := by
  induction r with
  | nil => rfl
  | cons q qs ih =>
    by_cases hq : q.1 = c
    · rw [List.map_cons, if_pos hq,
        List.find?_cons_of_pos _ (by simp),
        List.find?_cons_of_pos _ (by simp [hq])]
      rfl
    · rw [List.map_cons, if_neg hq,
        List.find?_cons_of_neg _ (by simp [hq]),
        List.find?_cons_of_neg _ (by simp [hq])]
      exact ih

theorem find?_map_set_ne (r : Row) (c c' : String) (v : Cell) (hne : c' ≠ c) :
    List.find? (fun p => decide (p.1 = c')) (r.map (fun p => if p.1 = c then (c, v) else p)) =
      List.find? (fun p => decide (p.1 = c')) r := by
  induction r with
  | nil => rfl
  | cons q qs ih =>
    by_cases hq : q.1 = c
    · rw [List.map_cons, if_pos hq,
        List.find?_cons_of_neg _ (by
          simp only [decide_eq_true_eq]
          intro he
          exact hne he.symm),
        List.find?_cons_of_neg _ (by
          simp only [decide_eq_true_eq]
          intro he
          exact hne (he ▸ hq))]
      exact ih
    · rw [List.map_cons, if_neg hq]
      by_cases hq' : q.1 = c'
      · rw [List.find?_cons_of_pos _ (by simp [hq']),
          List.find?_cons_of_pos _ (by simp [hq'])]
      · rw [List.find?_cons_of_neg _ (by simp [hq']),
          List.find?_cons_of_neg _ (by simp [hq'])]
        exact ih

theorem getCol_setCol_self (r : Row) (c : String) (v : Cell) :
    getCol (setCol r c v) c = v := by
  unfold setCol
  by_cases h : r.any (fun p => decide (p.1 = c)) = true
  · rw [if_pos h]
    unfold getCol
    rw [find?_map_set_self]
    rw [List.any_eq_true] at h
    obtain ⟨p, hp, hpc⟩ := h
    have hs : (List.find? (fun p => decide (p.1 = c)) r).isSome := by
      rw [List.find?_isSome]
      exact ⟨p, hp, hpc⟩
    cases hf : List.find? (fun p => decide (p.1 = c)) r with
    | none => rw [hf] at hs; cases hs
    | some q => rfl
  · rw [if_neg h]
    unfold getCol
    rw [List.find?_append]
    have hnone : r.find? (fun p => decide (p.1 = c)) = none := by
      rw [List.find?_eq_none]
      intro p hp hc
      exact h (List.any_eq_true.mpr ⟨p, hp, hc⟩)
    rw [hnone]
    rw [List.find?_cons_of_pos _ (by simp)]
    rfl

theorem getCol_setCol_ne (r : Row) (c c' : String) (v : Cell) (hne : c' ≠ c) :
    getCol (setCol r c v) c' = getCol r c' := by
  unfold setCol
  by_cases h : r.any (fun p => decide (p.1 = c)) = true
  · rw [if_pos h]
    unfold getCol
    rw [find?_map_set_ne r c c' v hne]
  · rw [if_neg h]
    unfold getCol
    rw [List.find?_append]
    rw [List.find?_cons_of_neg _ (by simp; exact fun he => hne he.symm)]
    cases hr : r.find? (fun p => decide (p.1 = c')) with
    | none => rfl
    | some p => rfl

/-- Column `c` of row `r` is present and all its entries hold one fixed
string value.  This is the state `astype(str)` leaves a column in. -/
def Stabilized (c : String) (r : Row) : Prop :=
  ∃ s, (∃ p ∈ r, p.1 = c) ∧ ∀ p ∈ r, p.1 = c → p.2 = Cell.str s

theorem stab_setCol_str (r : Row) (c : String) (s : String) :
    Stabilized c (setCol r c (Cell.str s)) := by
  refine ⟨s, ?_, ?_⟩
  · unfold setCol
    by_cases h : r.any (fun p => decide (p.1 = c)) = true
    · rw [if_pos h]
      rw [List.any_eq_true] at h
      obtain ⟨p, hp, hpc⟩ := h
      simp only [decide_eq_true_eq] at hpc
      refine ⟨(c, Cell.str s), ?_, rfl⟩
      rw [List.mem_map]
      exact ⟨p, hp, by rw [if_pos hpc]⟩
    · rw [if_neg h]
      exact ⟨(c, Cell.str s), by simp, rfl⟩
  · intro p hp hpc
    unfold setCol at hp
    by_cases h : r.any (fun p => decide (p.1 = c)) = true
    · rw [if_pos h] at hp
      rw [List.mem_map] at hp
      obtain ⟨q, _, hq⟩ := hp
      by_cases hqc : q.1 = c
      · rw [if_pos hqc] at hq
        rw [← hq]
      · rw [if_neg hqc] at hq
        exact absurd (hq ▸ hpc) hqc
    · rw [if_neg h] at hp
      rcases List.mem_append.mp hp with hmem | hmem
      · exact absurd (List.any_eq_true.mpr ⟨p, hmem, by simp [hpc]⟩) h
      · rw [List.mem_singleton] at hmem
        rw [hmem]

theorem stab_setCol_ne (r : Row) (c c' : String) (v : Cell) (hne : c' ≠ c)
    (h : Stabilized c r) : Stabilized c (setCol r c' v) := by
  obtain ⟨s, ⟨p, hp, hpc⟩, hall⟩ := h
  refine ⟨s, ?_, ?_⟩
  · unfold setCol
    by_cases hx : r.any (fun q => decide (q.1 = c')) = true
    · rw [if_pos hx]
      refine ⟨p, List.mem_map.mpr ⟨p, hp, ?_⟩, hpc⟩
      have hnp : ¬ p.1 = c' := by
        intro he
        rw [he] at hpc
        exact hne hpc
      rw [if_neg hnp]
    · rw [if_neg hx]
      exact ⟨p, List.mem_append.mpr (Or.inl hp), hpc⟩
  · intro q hq hqc
    unfold setCol at hq
    by_cases hx : r.any (fun q => decide (q.1 = c')) = true
    · rw [if_pos hx] at hq
      rw [List.mem_map] at hq
      obtain ⟨q0, hq0, hq0e⟩ := hq
      by_cases hq0c : q0.1 = c'
      · rw [if_pos hq0c] at hq0e
        have hq1 : q.1 = c' := by rw [← hq0e]
        exact absurd (hq1 ▸ hqc) hne
      · rw [if_neg hq0c] at hq0e
        exact hall q (hq0e ▸ hq0) hqc
    · rw [if_neg hx] at hq
      rcases List.mem_append.mp hq with hmem | hmem
      · exact hall q hmem hqc
      · rw [List.mem_singleton] at hmem
        have hq1 : q.1 = c' := by rw [hmem]
        exact absurd (hq1 ▸ hqc) hne

theorem getCol_of_stab (r : Row) (c : String) (h : Stabilized c r) :
    ∃ s, getCol r c = Cell.str s ∧ ∀ p ∈ r, p.1 = c → p.2 = Cell.str s := by
  obtain ⟨s, ⟨p, hp, hpc⟩, hall⟩ := h
  refine ⟨s, ?_, hall⟩
  have hs : (List.find? (fun q => decide (q.1 = c)) r).isSome := by
    rw [List.find?_isSome]
    exact ⟨p, hp, by simp [hpc]⟩
  cases hf : List.find? (fun q => decide (q.1 = c)) r with
  | none => rw [hf] at hs; cases hs
  | some q =>
    have hqmem := List.mem_of_find?_eq_some hf
    have hqc := List.find?_some hf
    simp only [decide_eq_true_eq] at hqc
    unfold getCol
    rw [hf]
    simp [hall q hqmem hqc]

theorem setCol_eq_self (r : Row) (c : String) (v : Cell)
    (hex : ∃ p ∈ r, p.1 = c) (hval : ∀ p ∈ r, p.1 = c → p.2 = v) :
    setCol r c v = r := by
  unfold setCol
  obtain ⟨p, hp, hpc⟩ := hex
  rw [if_pos (List.any_eq_true.mpr ⟨p, hp, by simp [hpc]⟩)]
  have : ∀ q ∈ r, (if q.1 = c then (c, v) else q) = q := by
    intro q hq
    by_cases hqc : q.1 = c
    · rw [if_pos hqc]
      have := hval q hq hqc
      cases q with
      | mk q1 q2 => simp only at hqc this; rw [hqc, this]
    · rw [if_neg hqc]
  calc r.map (fun q => if q.1 = c then (c, v) else q) = r.map id := List.map_congr_left this
    _ = r := List.map_id r

theorem astype_fix (r : Row) (c : String) (h : Stabilized c r) :
    setCol r c (Cell.str (cellToStr (getCol r c))) = r := by
  obtain ⟨s, hget, hall⟩ := getCol_of_stab r c h
  rw [hget]
  obtain ⟨s', ⟨p, hp, hpc⟩, _⟩ := h
  exact setCol_eq_self r c _ ⟨p, hp, hpc⟩ (fun q hq hqc => by rw [hall q hq hqc]; rfl)

/-- Worker for `drop_duplicates`: keep a row unless its key was already
seen earlier in the traversal. -/
def dedupByAux (key : Row → List Cell) (seen : List (List Cell)) : List Row → List Row
  | [] => []
  | r :: rest =>
    if key r ∈ seen then dedupByAux key seen rest
    else r :: dedupByAux key (key r :: seen) rest

/-- `df.drop_duplicates(subset)` with `key` reading the subset columns:
keeps the first row of every key, preserving order. -/
def dedupBy (key : Row → List Cell) (l : List Row) : List Row := dedupByAux key [] l

theorem mem_of_mem_dedupByAux (key : Row → List Cell) :
    ∀ (seen : List (List Cell)) (l : List Row) (x : Row),
      x ∈ dedupByAux key seen l → x ∈ l := by
  intro seen l
  induction l generalizing seen with
  | nil => intro x h; cases h
  | cons r rest ih =>
    intro x h
    unfold dedupByAux at h
    by_cases hs : key r ∈ seen
    · rw [if_pos hs] at h
      exact List.mem_cons_of_mem r (ih seen x h)
    · rw [if_neg hs] at h
      rcases List.mem_cons.mp h with hh | ht
      · exact hh ▸ List.mem_cons_self r rest
      · exact List.mem_cons_of_mem r (ih _ x ht)

theorem key_notin_of_mem_dedupByAux (key : Row → List Cell) :
    ∀ (seen : List (List Cell)) (l : List Row) (x : Row),
      x ∈ dedupByAux key seen l → key x ∉ seen := by
  intro seen l
  induction l generalizing seen with
  | nil => intro x h; cases h
  | cons r rest ih =>
    intro x h
    unfold dedupByAux at h
    by_cases hs : key r ∈ seen
    · rw [if_pos hs] at h
      exact ih seen x h
    · rw [if_neg hs] at h
      rcases List.mem_cons.mp h with hh | ht
      · rw [hh]; exact hs
      · intro hmem
        exact ih _ x ht (List.mem_cons_of_mem _ hmem)

theorem pairwise_dedupByAux (key : Row → List Cell) :
    ∀ (seen : List (List Cell)) (l : List Row),
      (dedupByAux key seen l).Pairwise (fun a b => key a ≠ key b) := by
  intro seen l
  induction l generalizing seen with
  | nil => exact List.Pairwise.nil
  | cons r rest ih =>
    unfold dedupByAux
    by_cases hs : key r ∈ seen
    · rw [if_pos hs]; exact ih seen
    · rw [if_neg hs]
      refine List.Pairwise.cons ?_ (ih _)
      intro y hy he
      exact key_notin_of_mem_dedupByAux key _ _ y hy (he ▸ List.mem_cons_self _ _)

theorem pairwise_dedupBy (key : Row → List Cell) (l : List Row) :
    (dedupBy key l).Pairwise (fun a b => key a ≠ key b) :=
  pairwise_dedupByAux key [] l

theorem dedupByAux_eq_self (key : Row → List Cell) :
    ∀ (seen : List (List Cell)) (l : List Row),
      l.Pairwise (fun a b => key a ≠ key b) →
      (∀ x ∈ l, key x ∉ seen) → dedupByAux key seen l = l := by
  intro seen l
  induction l generalizing seen with
  | nil => intro _ _; rfl
  | cons r rest ih =>
    intro hpw hseen
    unfold dedupByAux
    rw [if_neg (hseen r (List.mem_cons_self r rest))]
    rw [List.pairwise_cons] at hpw
    congr 1
    refine ih _ hpw.2 ?_
    intro x hx hmem
    rcases List.mem_cons.mp hmem with hh | ht
    · exact hpw.1 x hx hh.symm
    · exact hseen x (List.mem_cons_of_mem r hx) ht

theorem dedupBy_eq_self (key : Row → List Cell) (l : List Row)
    (hpw : l.Pairwise (fun a b => key a ≠ key b)) : dedupBy key l = l :=
  dedupByAux_eq_self key [] l hpw (fun x _ h => (List.not_mem_nil (key x)) h)

/-- Embedding of the regex search for `(C\d+)` used on `obo_id` values
(source line 127-128): the first occurrence of the letter C followed by
at least one decimal digit, the digit run taken greedily. -/
def extractCode : List Char → Option (List Char)
  | [] => none
  | c :: rest =>
    if c = 'C' then
      if (rest.takeWhile Char.isDigit).isEmpty then extractCode rest
      else some (c :: rest.takeWhile Char.isDigit)
    else extractCode rest

/-- `str.extract(r'(C\d+)', expand=False)` on one stringified cell. -/
def extractCodeStr (s : String) : Option String := (extractCode s.data).map String.mk

/-- `df[c] = df[c].astype(str)` over all rows. -/
def astypeCol (c : String) (rows : List Row) : List Row :=
  rows.map (fun r => setCol r c (Cell.str (cellToStr (getCol r c))))

/-- Embedding of `OntoMapEngine._normalize_df` (source lines 102-143).
Steps, as in the source: (1) fall back from a missing `official_label`
column to `label`, else fail; (2) when a code is needed and `clean_code`
is missing, derive it from `obo_id` by regex extraction, else fail;
(3) `dropna` on the key columns, `drop_duplicates` on them, then
`astype(str)` on `official_label` and, when present, `clean_code`. -/
def normKeep (need_code : Bool) : List String :=
  ("official_label") :: (if need_code then [("clean_code")] else [])

/-- The cleaning tail of `_normalize_df` (source lines 136-143):
`dropna(subset=keep)`, `drop_duplicates(subset=keep)`, then
`astype(str)` on `official_label` and, when the column exists, on
`clean_code`. -/
def normFinish (cols : List String) (rows : List Row) (need_code : Bool) : DF :=
  let keep := normKeep need_code
  let rows3 := rows.filter (fun r => keep.all (fun c => decide (¬ getCol r c = Cell.null)))
  let rows4 := dedupBy (fun r => keep.map (getCol r)) rows3
  let rows5 := astypeCol ("official_label") rows4
  let rows6 := if cols.contains ("clean_code") then astypeCol ("clean_code") rows5 else rows5
  { cols := cols, rows := rows6 }

/-- Step 1 of `_normalize_df` (source lines 112-120): `official_label`
falls back to `label`; neither present is a configuration error. -/
def normStep1 (df : DF) : Except String DF :=
  if df.cols.contains ("official_label") then Except.ok df
  else if df.cols.contains ("label") then
    Except.ok { cols := df.cols ++ [("official_label")],
                rows := df.rows.map (fun r => setCol r ("official_label") (getCol r ("label"))) }
  else Except.error ("DataFrame must contain official_label or label")

/-- Step 2 of `_normalize_df` (source lines 122-134): when a code is
needed, a missing `clean_code` is derived from `obo_id` via the regex,
and neither source present is a configuration error. -/
def normStep2 (df1 : DF) (need_code : Bool) : Except String DF :=
  if need_code then
    if df1.cols.contains ("clean_code") then Except.ok df1
    else if df1.cols.contains ("obo_id") then
      Except.ok { cols := df1.cols ++ [("clean_code")],
                  rows := df1.rows.map (fun r =>
                    setCol r ("clean_code")
                      (match extractCodeStr (cellToStr (getCol r ("obo_id"))) with
                       | some code => Cell.str code
                       | none => Cell.null)) }
    else Except.error ("DataFrame must contain clean_code or obo_id for RAG/RAG_BIE strategies")
  else Except.ok df1

def normalize_df (df : DF) (need_code : Bool) : Except String DF :=
  match normStep1 df with
  | Except.error e => Except.error e
  | Except.ok df1 =>
    match normStep2 df1 need_code with
    | Except.error e => Except.error e
    | Except.ok df2 => Except.ok (normFinish df2.cols df2.rows need_code)

/-- The code-to-name dictionary built by `_map_shortname_to_fullname`
from the two-column abbreviation CSV (source lines 163-166):
`dict(zip(df.code.str.strip(), df.name.str.strip()))`, a later row with
the same stripped code overriding an earlier one. -/
def buildShortToName (table : List (String × String)) : String → Option String :=
  fun k =>
    (((table.map (fun p => (pyStrip p.1, pyStrip p.2))).reverse.find?
      (fun p => decide (p.1 = k))).map Prod.snd)

/-- The dictionary actually available to the resolver: the loaded CSV
content, or the empty dictionary when the file failed to load
(source lines 167-171). -/
def loadDict (load : Option (List (String × String))) : String → Option String :=
  match load with
  | none => fun _ => none
  | some table => buildShortToName table

/-- `short_to_name.get(q.strip(), q.strip())` (source line 176): the
expansion of one query string. -/
def expandQuery (load : Option (List (String × String))) (q : String) : String :=
  (loadDict load (pyStrip q)).getD (pyStrip q)

/-- First occurrence of each string, in order: the key sequence of a
Python dict filled by iterating over `l`. -/
def firstOccur (seen : List String) : List String → List String
  | [] => []
  | q :: rest =>
    if q ∈ seen then firstOccur seen rest
    else q :: firstOccur (q :: seen) rest

def pyDictKeys (l : List String) : List String := firstOccur [] l

theorem mem_firstOccur (x : String) :
    ∀ (seen l : List String), x ∈ firstOccur seen l ↔ x ∈ l ∧ x ∉ seen := by
  intro seen l
  induction l generalizing seen with
  | nil => simp [firstOccur]
  | cons q rest ih =>
    unfold firstOccur
    by_cases hq : q ∈ seen
    · rw [if_pos hq, ih]
      constructor
      · rintro ⟨h1, h2⟩
        exact ⟨List.mem_cons_of_mem q h1, h2⟩
      · rintro ⟨h1, h2⟩
        rcases List.mem_cons.mp h1 with hh | ht
        · exact absurd (hh ▸ hq) h2
        · exact ⟨ht, h2⟩
    · rw [if_neg hq]
      by_cases hx : x = q
      · subst hx
        simp [hq]
      · rw [List.mem_cons]
        constructor
        · rintro (hh | ht)
          · exact absurd hh hx
          · rcases (ih _).mp ht with ⟨h1, h2⟩
            exact ⟨List.mem_cons_of_mem q h1,
              fun hs => h2 (List.mem_cons_of_mem q hs)⟩
        · rintro ⟨h1, h2⟩
          rcases List.mem_cons.mp h1 with hh | ht
          · exact absurd hh hx
          · exact Or.inr ((ih _).mpr ⟨ht, by
              intro hs
              rcases List.mem_cons.mp hs with hh2 | ht2
              · exact hx hh2
              · exact h2 ht2⟩)

theorem mem_pyDictKeys (x : String) (l : List String) :
    x ∈ pyDictKeys l ↔ x ∈ l := by
  unfold pyDictKeys
  rw [mem_firstOccur]
  simp

/-- Embedding of `OntoMapEngine._map_shortname_to_fullname` (source
lines 157-180): a dictionary keyed by the original strings (first
occurrences, as Python dict insertion order), each mapped to its
expansion. -/
def map_shortname_to_fullname (load : Option (List (String × String)))
    (l : List String) : List (String × String) :=
  (pyDictKeys l).map (fun q => (q, expandQuery load q))

theorem lookup_map_self (f : String → String) (l : List String) (q : String)
    (hq : q ∈ l) :
    (l.map (fun x => (x, f x))).lookup q = some (f q) := by
  induction l with
  | nil => cases hq
  | cons x xs ih =>
    by_cases hx : q = x
    · subst hx
      simp [List.lookup]
    · rw [List.map_cons]
      rcases List.mem_cons.mp hq with hh | ht
      · exact absurd hh hx
      · rw [← ih ht]
        simp [List.lookup_cons, beq_false_of_ne hx]

theorem lookup_map_shortname_to_fullname (load : Option (List (String × String)))
    (l : List String) (q : String) (hq : q ∈ l) :
    (map_shortname_to_fullname load l).lookup q = some (expandQuery load q) :=
  lookup_map_self (expandQuery load) (pyDictKeys l) q ((mem_pyDictKeys q l).mpr hq)

/-- Engine construction inputs as far as `run` reads them.  `s3_enabled`
stands for `s3_strategy is not None` (which concrete stage-2 or stage-3
strategy name is used only selects which external backend is invoked,
and backends are modelled by their output tables). -/
structure Config where
  query : List String
  corpus : List String
  cura_map : String → Option String
  topk : Nat
  s3_enabled : Bool
  s3_threshold : ℚ

/-- One row of a backend result table, keyed by the query string it
answers.  `top1_score` is the numeric reading of its `top1_score` cell:
`none` models a NaN / non-parseable value.  `extra` carries the other
backend-provided columns opaquely. -/
structure BackendRow where
  top1_score : Option ℚ
  extra : List (String × Cell)
deriving DecidableEq

/-- The table returned by one `get_match_results` call: whether it has a
`top1_score` column, and at most one row per query string (the backend
contract says the table is keyed by query string). -/
structure BackendTable where
  hasTop1 : Bool
  rows : String → Option BackendRow

/-- One row of a stage-2 or stage-3 result table after the engine
merges the backend output back onto its query list (source lines
297-304 and 385-394): the original query, its expansion, the backend
row found by the left join on `updated_value` (`none` = the backend
dropped the query and the joined fields are null), the curation lookup
filled with Not Found, and the stage tag. -/
structure ResRow where
  original_value : String
  updated_value : String
  backend : Option BackendRow
  curated_ontology : String
  stage : Nat
deriving DecidableEq

/-- The stage-2 / stage-3 row the engine derives for one query string. -/
def rowFor (stage : Nat) (cfg : Config) (load : Option (List (String × String)))
    (bt : BackendTable) (q : String) : ResRow :=
  { original_value := q
    updated_value := expandQuery load q
    backend := bt.rows (expandQuery load q)
    curated_ontology := (cfg.cura_map q).getD ("Not Found")
    stage := stage }

/-- A full stage table: the left join keeps exactly one row per query in
the stage's query list, in order. -/
def mkStageRows (stage : Nat) (cfg : Config) (load : Option (List (String × String)))
    (bt : BackendTable) (qs : List String) : List ResRow :=
  qs.map (rowFor stage cfg load bt)

/-- One stage-1 row (source lines 255-262): curated value from the
curation map with the original query as fallback, `match_level` 1,
`stage` 1, and all `top{i}_match` / `top{i}_score` columns for
i = 1..topk equal to the curated value / 1.00. -/
structure ExactRow where
  original_value : String
  curated_ontology : String
  match_level : Nat
  stage : Nat
  top_matches : List String
  top_scores : List ℚ
deriving DecidableEq

def exactRowFor (cfg : Config) (q : String) : ExactRow :=
  { original_value := q
    curated_ontology := (cfg.cura_map q).getD q
    match_level := 1
    stage := 1
    top_matches := List.replicate cfg.topk ((cfg.cura_map q).getD q)
    top_scores := List.replicate cfg.topk 1 }

/-- The stage-1 table `exact_df`. -/
def mkExactRows (cfg : Config) : List ExactRow :=
  (exact_matching cfg.query cfg.corpus).map (exactRowFor cfg)

/-- A row of the final combined table: one constructor per row shape
concatenated by `pd.concat` (stage-1 rows on one side, stage-2 and
stage-3 rows on the other; columns missing on either side are null). -/
inductive FinalRow where
  | s1 (r : ExactRow) : FinalRow
  | s23 (r : ResRow) : FinalRow
deriving DecidableEq

def FinalRow.original_value : FinalRow → String
  | FinalRow.s1 r => r.original_value
  | FinalRow.s23 r => r.original_value

def FinalRow.stage : FinalRow → Nat
  | FinalRow.s1 r => r.stage
  | FinalRow.s23 r => r.stage

/-- The stage-1 leftovers (source line 265):
`list(np.setdiff1d(self.query, stage1_matches))`. -/
def nonExactList (cfg : Config) : List String :=
  setdiff1d cfg.query (exact_matching cfg.query cfg.corpus)

/-- The stage-2 result table `s2_res` after the merge (lines 280-304). -/
def s2Res (cfg : Config) (load : Option (List (String × String)))
    (bt2 : BackendTable) : List ResRow :=
  mkStageRows 2 cfg load bt2 (nonExactList cfg)

/-- `pd.to_numeric(row.top1_score, errors=coerce).fillna(0)` for one
merged row: a missing backend row or a non-parseable score reads as 0
(source lines 340-342). -/
def coerceTop1 (r : ResRow) : ℚ :=
  match r.backend with
  | none => 0
  | some b => b.top1_score.getD 0

/-- `queries_for_s3` (source lines 343-344): original values of the
stage-2 rows whose coerced score is below the threshold. -/
def queriesForS3 (cfg : Config) (load : Option (List (String × String)))
    (bt2 : BackendTable) : List String :=
  ((s2Res cfg load bt2).filter
    (fun r => decide (coerceTop1 r < cfg.s3_threshold))).map ResRow.original_value

/-- Whether the run reaches the stage-3 model construction at source
line 378: stage 3 configured, stage 2 entered, `top1_score` present,
and a non-empty escalation set. -/
def stage3Invoked (cfg : Config) (load : Option (List (String × String)))
    (bt2 : BackendTable) : Bool :=
  cfg.s3_enabled && !(nonExactList cfg).isEmpty && bt2.hasTop1
    && !(queriesForS3 cfg load bt2).isEmpty

/-- Embedding of `OntoMapEngine.run` (source lines 236-417).  `load` is
the abbreviation CSV content (both stage-2 and stage-3 resolver calls
read the same file), `bt2` and `bt3` are the tables returned by the
stage-2 and stage-3 backend invocations. -/
def run (cfg : Config) (load : Option (List (String × String)))
    (bt2 bt3 : BackendTable) : List FinalRow :=
  let exactRows := (mkExactRows cfg).map FinalRow.s1
  if (nonExactList cfg).isEmpty then exactRows
  else
    let s2 := s2Res cfg load bt2
    if !cfg.s3_enabled then exactRows ++ s2.map FinalRow.s23
    else if !bt2.hasTop1 then exactRows ++ s2.map FinalRow.s23
    else
      let qs3 := queriesForS3 cfg load bt2
      if qs3.isEmpty then exactRows ++ s2.map FinalRow.s23
      else
        let s3 := mkStageRows 3 cfg load bt3 qs3
        let s2f := s2.filter (fun r => !(qs3.contains r.original_value))
        exactRows ++ s2f.map FinalRow.s23 ++ s3.map FinalRow.s23

/-- A query escalates to stage 3 when the run reaches the stage-3 branch
and the coerced stage-2 score for this query is below the threshold. -/
def escalates (cfg : Config) (load : Option (List (String × String)))
    (bt2 : BackendTable) (q : String) : Bool :=
  stage3Invoked cfg load bt2
    && decide (coerceTop1 (rowFor 2 cfg load bt2 q) < cfg.s3_threshold)

theorem queriesForS3_eq (cfg : Config) (load : Option (List (String × String)))
    (bt2 : BackendTable) :
    queriesForS3 cfg load bt2 =
      (nonExactList cfg).filter
        (fun q => decide (coerceTop1 (rowFor 2 cfg load bt2 q) < cfg.s3_threshold)) := by
  unfold queriesForS3 s2Res mkStageRows
  rw [List.filter_map, List.map_map]
  rw [show (ResRow.original_value ∘ rowFor 2 cfg load bt2) = fun q => q from rfl,
    List.map_id']
  rfl

theorem mem_queriesForS3 (cfg : Config) (load : Option (List (String × String)))
    (bt2 : BackendTable) (q : String) :
    q ∈ queriesForS3 cfg load bt2 ↔
      q ∈ nonExactList cfg ∧
        coerceTop1 (rowFor 2 cfg load bt2 q) < cfg.s3_threshold := by
  rw [queriesForS3_eq, List.mem_filter]
  simp


/-- Normal form of `run`: the stage-1 rows, then a stage-2 row for every
non-escalated leftover query, then a stage-3 row for every escalated
one.  All four return paths of the source collapse to this shape. -/
theorem run_eq (cfg : Config) (load : Option (List (String × String)))
    (bt2 bt3 : BackendTable) :
    run cfg load bt2 bt3 =
      (mkExactRows cfg).map FinalRow.s1
      ++ ((nonExactList cfg).filter (fun q => !(escalates cfg load bt2 q))).map
          (fun q => FinalRow.s23 (rowFor 2 cfg load bt2 q))
      ++ ((nonExactList cfg).filter (escalates cfg load bt2)).map
          (fun q => FinalRow.s23 (rowFor 3 cfg load bt3 q)) := by
  unfold run
  by_cases h1 : (nonExactList cfg).isEmpty = true
  · rw [if_pos h1]
    have he : nonExactList cfg = [] := List.isEmpty_iff.mp h1
    simp [he]
  · rw [if_neg h1]
    have hinv0 : ∀ (_ : stage3Invoked cfg load bt2 = false),
        (mkExactRows cfg).map FinalRow.s1
          ++ (s2Res cfg load bt2).map FinalRow.s23 =
        (mkExactRows cfg).map FinalRow.s1
        ++ ((nonExactList cfg).filter (fun q => !(escalates cfg load bt2 q))).map
            (fun q => FinalRow.s23 (rowFor 2 cfg load bt2 q))
        ++ ((nonExactList cfg).filter (escalates cfg load bt2)).map
            (fun q => FinalRow.s23 (rowFor 3 cfg load bt3 q)) := by
      intro h
      have hesc : ∀ q, escalates cfg load bt2 q = false := by
        intro q
        unfold escalates
        rw [h]
        rfl
      rw [List.filter_eq_self.mpr (fun q _ => by rw [hesc q]; rfl),
        List.filter_eq_nil_iff.mpr (fun q _ => by rw [hesc q]; exact Bool.false_ne_true)]
      unfold s2Res mkStageRows
      rw [List.map_map]
      simp only [List.map_nil, List.append_nil]
      rfl
    by_cases h2 : (!cfg.s3_enabled) = true
    · rw [if_pos h2]
      refine hinv0 ?_
      unfold stage3Invoked
      rw [Bool.not_eq_true'] at h2
      rw [h2]
      rfl
    · rw [if_neg h2]
      by_cases h3 : (!bt2.hasTop1) = true
      · rw [if_pos h3]
        refine hinv0 ?_
        unfold stage3Invoked
        rw [Bool.not_eq_true'] at h3
        rw [h3]
        simp
      · rw [if_neg h3]
        by_cases h4 : (queriesForS3 cfg load bt2).isEmpty = true
        · rw [if_pos h4]
          refine hinv0 ?_
          unfold stage3Invoked
          rw [h4]
          simp
        · rw [if_neg h4]
          rw [Bool.not_eq_true] at h1 h2 h3 h4
          rw [Bool.not_eq_false'] at h2 h3
          have hinv : stage3Invoked cfg load bt2 = true := by
            unfold stage3Invoked
            rw [h1, h2, h3, h4]
            rfl
          have hesc : ∀ q, escalates cfg load bt2 q =
              decide (coerceTop1 (rowFor 2 cfg load bt2 q) < cfg.s3_threshold) := by
            intro q
            unfold escalates
            rw [hinv, Bool.true_and]
          have hcont : ∀ q ∈ nonExactList cfg,
              (queriesForS3 cfg load bt2).contains q = escalates cfg load bt2 q := by
            intro q hq
            by_cases hmem : q ∈ queriesForS3 cfg load bt2
            · rw [show (queriesForS3 cfg load bt2).contains q = true from
                List.elem_iff.mpr hmem]
              rcases (mem_queriesForS3 cfg load bt2 q).mp hmem with ⟨_, hlow⟩
              rw [hesc q]
              exact (decide_eq_true hlow).symm
            · have hc : (queriesForS3 cfg load bt2).contains q = false := by
                cases hcc : (queriesForS3 cfg load bt2).contains q with
                | false => rfl
                | true => exact absurd (List.elem_iff.mp hcc) hmem
              rw [hc, hesc q]
              have hnlow : ¬ coerceTop1 (rowFor 2 cfg load bt2 q) < cfg.s3_threshold :=
                fun hlow => hmem ((mem_queriesForS3 cfg load bt2 q).mpr ⟨hq, hlow⟩)
              exact (decide_eq_false hnlow).symm
          show (mkExactRows cfg).map FinalRow.s1
              ++ ((s2Res cfg load bt2).filter
                  (fun r => !((queriesForS3 cfg load bt2).contains r.original_value))).map
                    FinalRow.s23
              ++ (mkStageRows 3 cfg load bt3 (queriesForS3 cfg load bt2)).map FinalRow.s23
            = (mkExactRows cfg).map FinalRow.s1
              ++ ((nonExactList cfg).filter (fun q => !(escalates cfg load bt2 q))).map
                  (fun q => FinalRow.s23 (rowFor 2 cfg load bt2 q))
              ++ ((nonExactList cfg).filter (escalates cfg load bt2)).map
                  (fun q => FinalRow.s23 (rowFor 3 cfg load bt3 q))
          have hfc2 : List.filter
              ((fun r => !((queriesForS3 cfg load bt2).contains r.original_value))
                ∘ rowFor 2 cfg load bt2) (nonExactList cfg)
              = List.filter (fun q => !(escalates cfg load bt2 q)) (nonExactList cfg) := by
            apply List.filter_congr
            intro q hq
            show (!((queriesForS3 cfg load bt2).contains
                ((rowFor 2 cfg load bt2 q).original_value)))
              = (!(escalates cfg load bt2 q))
            rw [show (rowFor 2 cfg load bt2 q).original_value = q from rfl, hcont q hq]
          have hfc3 : List.filter
              (fun q => decide (coerceTop1 (rowFor 2 cfg load bt2 q) < cfg.s3_threshold))
              (nonExactList cfg)
              = List.filter (escalates cfg load bt2) (nonExactList cfg) := by
            apply List.filter_congr
            intro q _
            exact (hesc q).symm
          congr 1
          · congr 1
            unfold s2Res mkStageRows
            rw [List.filter_map, List.map_map, hfc2]
            rfl
          · unfold mkStageRows
            rw [queriesForS3_eq, hfc3, List.map_map]
            rfl

theorem normFinish_cols (cols : List String) (rows : List Row) (need : Bool) :
    (normFinish cols rows need).cols = cols := rfl

theorem astypeCol_fix (c : String) (rows : List Row)
    (h : ∀ r ∈ rows, Stabilized c r) : astypeCol c rows = rows := by
  unfold astypeCol
  calc rows.map (fun r => setCol r c (Cell.str (cellToStr (getCol r c))))
      = rows.map id := List.map_congr_left (fun r hr => astype_fix r c (h r hr))
    _ = rows := List.map_id rows

/-- Every row coming out of the cleaning tail has a stringified
`official_label` column, and a stringified `clean_code` column whenever
that column exists in the frame. -/
theorem normFinish_rows_stab (cols : List String) (rows : List Row) (need : Bool) :
    ∀ r ∈ (normFinish cols rows need).rows,
      Stabilized ("official_label") r
      ∧ (cols.contains ("clean_code") = true → Stabilized ("clean_code") r) := by
  intro r hr
  unfold normFinish at hr
  dsimp only at hr
  by_cases hc : cols.contains ("clean_code") = true
  · rw [if_pos hc] at hr
    unfold astypeCol at hr
    rw [List.map_map, List.mem_map] at hr
    obtain ⟨r4, _, heq⟩ := hr
    constructor
    · refine heq ▸ stab_setCol_ne _ _ _ _ (by decide) ?_
      exact stab_setCol_str _ _ _
    · intro _
      exact heq ▸ stab_setCol_str _ _ _
  · rw [if_neg hc] at hr
    unfold astypeCol at hr
    rw [List.mem_map] at hr
    obtain ⟨r4, _, heq⟩ := hr
    constructor
    · exact heq ▸ stab_setCol_str _ _ _
    · intro hcc
      exact absurd hcc hc

theorem dedupByAux_sublist (key : Row → List Cell) :
    ∀ (seen : List (List Cell)) (l : List Row), (dedupByAux key seen l).Sublist l := by
  intro seen l
  induction l generalizing seen with
  | nil =>
    unfold dedupByAux
    exact List.Sublist.refl []
  | cons r rest ih =>
    unfold dedupByAux
    by_cases hs : key r ∈ seen
    · rw [if_pos hs]
      exact List.Sublist.cons r (ih seen)
    · rw [if_neg hs]
      exact List.Sublist.cons₂ r (ih _)

theorem dedupBy_sublist (key : Row → List Cell) (l : List Row) :
    (dedupBy key l).Sublist l :=
  dedupByAux_sublist key [] l

/-- On rows whose key columns are already stringified (`Stabilized`),
the cleaning tail reduces to `drop_duplicates` alone: `dropna` keeps
every row and `astype(str)` rewrites nothing.  The dedup can still drop
rows, because the first pass deduplicates raw values and only then
stringifies them, and distinct raw values can share one rendering. -/
theorem normFinish_of_stab (cols : List String) (rows : List Row) (need : Bool)
    (hstab : ∀ r ∈ rows, Stabilized ("official_label") r
      ∧ (cols.contains ("clean_code") = true → Stabilized ("clean_code") r))
    (hclean : need = true → cols.contains ("clean_code") = true) :
    normFinish cols rows need
      = { cols := cols,
          rows := dedupBy (fun r => (normKeep need).map (getCol r)) rows } := by
  have hP : ∀ r ∈ rows,
      ((normKeep need).all (fun c => decide (¬ getCol r c = Cell.null))) = true := by
    intro r hr
    obtain ⟨hoff, hcl⟩ := hstab r hr
    rw [List.all_eq_true]
    intro c hc
    cases need with
    | false =>
      have hco : c = ("official_label") := List.mem_singleton.mp hc
      subst hco
      obtain ⟨s, hs, _⟩ := getCol_of_stab r _ hoff
      rw [hs]
      exact decide_eq_true (fun hx => Cell.noConfusion hx)
    | true =>
      rcases List.mem_cons.mp hc with hco | hcc
      · subst hco
        obtain ⟨s, hs, _⟩ := getCol_of_stab r _ hoff
        rw [hs]
        exact decide_eq_true (fun hx => Cell.noConfusion hx)
      · have hco : c = ("clean_code") := List.mem_singleton.mp hcc
        subst hco
        obtain ⟨s, hs, _⟩ := getCol_of_stab r _ (hcl (hclean rfl))
        rw [hs]
        exact decide_eq_true (fun hx => Cell.noConfusion hx)
  have hmem : ∀ r ∈ dedupBy (fun r => (normKeep need).map (getCol r)) rows,
      r ∈ rows :=
    fun r hr => mem_of_mem_dedupByAux _ _ _ _ hr
  unfold normFinish
  dsimp only
  rw [List.filter_eq_self.mpr hP]
  rw [astypeCol_fix _ _ (fun r hr => (hstab r (hmem r hr)).1)]
  by_cases hc : cols.contains ("clean_code") = true
  · rw [if_pos hc]
    rw [astypeCol_fix _ _ (fun r hr => (hstab r (hmem r hr)).2 hc)]
  · rw [if_neg hc]

theorem contains_append_self (l : List String) (x : String) :
    (l ++ [x]).contains x = true :=
  List.elem_iff.mpr (List.mem_append.mpr (Or.inr (List.mem_singleton.mpr rfl)))

theorem contains_append_mono (l : List String) (x y : String)
    (h : l.contains y = true) : (l ++ [x]).contains y = true :=
  List.elem_iff.mpr (List.mem_append.mpr (Or.inl (List.elem_iff.mp h)))

theorem normStep1_shape (df out : DF) (h : normStep1 df = Except.ok out) :
    out.cols.contains ("official_label") = true := by
  unfold normStep1 at h
  by_cases h1 : df.cols.contains ("official_label") = true
  · rw [if_pos h1] at h
    cases h
    exact h1
  · rw [if_neg h1] at h
    by_cases h2 : df.cols.contains ("label") = true
    · rw [if_pos h2] at h
      cases h
      exact contains_append_self _ _
    · rw [if_neg h2] at h
      exact Except.noConfusion h

theorem normStep2_shape (df1 : DF) (need : Bool) (out : DF)
    (h : normStep2 df1 need = Except.ok out)
    (hoff : df1.cols.contains ("official_label") = true) :
    out.cols.contains ("official_label") = true
    ∧ (need = true → out.cols.contains ("clean_code") = true) := by
  unfold normStep2 at h
  cases need with
  | false =>
    rw [if_neg Bool.false_ne_true] at h
    cases h
    exact ⟨hoff, fun hf => Bool.noConfusion hf⟩
  | true =>
    rw [if_pos rfl] at h
    by_cases h1 : df1.cols.contains ("clean_code") = true
    · rw [if_pos h1] at h
      cases h
      exact ⟨hoff, fun _ => h1⟩
    · rw [if_neg h1] at h
      by_cases h2 : df1.cols.contains ("obo_id") = true
      · rw [if_pos h2] at h
        cases h
        exact ⟨contains_append_mono _ _ _ hoff, fun _ => contains_append_self _ _⟩
      · rw [if_neg h2] at h
        exact Except.noConfusion h

theorem normalize_df_ok_shape (df : DF) (need : Bool) (out : DF)
    (h : normalize_df df need = Except.ok out) :
    out.cols.contains ("official_label") = true
    ∧ (need = true → out.cols.contains ("clean_code") = true)
    ∧ ∃ rows0, out = normFinish out.cols rows0 need := by
  unfold normalize_df at h
  cases e1 : normStep1 df with
  | error e =>
    rw [e1] at h
    exact Except.noConfusion h
  | ok df1 =>
    rw [e1] at h
    dsimp only at h
    cases e2 : normStep2 df1 need with
    | error e =>
      rw [e2] at h
      exact Except.noConfusion h
    | ok df2 =>
      rw [e2] at h
      dsimp only at h
      cases h
      obtain ⟨hoff2, hcl2⟩ :=
        normStep2_shape df1 need df2 e2 (normStep1_shape df df1 e1)
      refine ⟨hoff2, hcl2, df2.rows, ?_⟩
      rfl

/-- Re-running the normalizer on its own output: the steps reduce to a
single `drop_duplicates` over the already-stringified key columns. -/
theorem normalize_df_renorm_core (out : DF) (need : Bool)
    (hoff : out.cols.contains ("official_label") = true)
    (hcl : need = true → out.cols.contains ("clean_code") = true)
    (hstab : ∀ r ∈ out.rows, Stabilized ("official_label") r
      ∧ (out.cols.contains ("clean_code") = true → Stabilized ("clean_code") r)) :
    normalize_df out need = Except.ok
      { cols := out.cols,
        rows := dedupBy (fun r => (normKeep need).map (getCol r)) out.rows } := by
  unfold normalize_df
  have e1 : normStep1 out = Except.ok out := by
    unfold normStep1
    rw [if_pos hoff]
  rw [e1]
  dsimp only
  have e2 : normStep2 out need = Except.ok out := by
    unfold normStep2
    cases need with
    | false => rw [if_neg Bool.false_ne_true]
    | true => rw [if_pos rfl, if_pos (hcl rfl)]
  rw [e2]
  dsimp only
  rw [normFinish_of_stab out.cols out.rows need hstab hcl]

theorem mem_s2Res (cfg : Config) (load : Option (List (String × String)))
    (bt2 : BackendTable) (r : ResRow) :
    r ∈ s2Res cfg load bt2 ↔
      ∃ q ∈ nonExactList cfg, r = rowFor 2 cfg load bt2 q := by
  unfold s2Res mkStageRows
  rw [List.mem_map]
  constructor
  · rintro ⟨q, hq, he⟩
    exact ⟨q, hq, he.symm⟩
  · rintro ⟨q, hq, he⟩
    exact ⟨q, hq, he.symm⟩

theorem not_norm_match_of_mem_nonExact (cfg : Config) (q : String)
    (hq : q ∈ nonExactList cfg) :
    (cfg.corpus.map stripLower).contains (stripLower q) = false := by
  rcases (mem_setdiff1d _ _ q).mp hq with ⟨hqq, hnx⟩
  cases hcc : (cfg.corpus.map stripLower).contains (stripLower q) with
  | false => rfl
  | true => exact absurd (List.mem_filter.mpr ⟨hqq, hcc⟩) hnx

/-- Where each final row comes from: an exact match (stage 1), a
retained stage-2 row, or an escalated stage-3 row. -/
theorem run_row_origin (cfg : Config) (load : Option (List (String × String)))
    (bt2 bt3 : BackendTable) (r : FinalRow) (hr : r ∈ run cfg load bt2 bt3) :
    (r.stage = 1 ∧ r.original_value ∈ cfg.query
      ∧ (cfg.corpus.map stripLower).contains (stripLower r.original_value) = true)
    ∨ (r.stage = 2 ∧ r.original_value ∈ nonExactList cfg
      ∧ escalates cfg load bt2 r.original_value = false)
    ∨ (r.stage = 3 ∧ r.original_value ∈ nonExactList cfg
      ∧ escalates cfg load bt2 r.original_value = true) := by
  rw [run_eq] at hr
  rcases List.mem_append.mp hr with hm | hm3
  · rcases List.mem_append.mp hm with hm1 | hm2
    · left
      rcases List.mem_map.mp hm1 with ⟨er, her, heq⟩
      unfold mkExactRows at her
      rcases List.mem_map.mp her with ⟨q, hq, heq2⟩
      subst heq
      subst heq2
      rcases List.mem_filter.mp hq with ⟨hqq, hcc⟩
      exact ⟨rfl, hqq, hcc⟩
    · right; left
      rcases List.mem_map.mp hm2 with ⟨q, hq, heq⟩
      subst heq
      rcases List.mem_filter.mp hq with ⟨hqq, hesc⟩
      refine ⟨rfl, hqq, ?_⟩
      rw [Bool.not_eq_true'] at hesc
      exact hesc
  · right; right
    rcases List.mem_map.mp hm3 with ⟨q, hq, heq⟩
    subst heq
    rcases List.mem_filter.mp hq with ⟨hqq, hesc⟩
    exact ⟨rfl, hqq, hesc⟩

/-- C1 (amended): the multiset of `original_value` entries of the final
table is the multiset of exact-match occurrences of the input (each
occurrence kept) plus each distinct non-exact query exactly once:
duplicate occurrences of non-exact queries are collapsed by the
`np.setdiff1d` hand-off to stage 2. -/
theorem coverage_amended (cfg : Config) (load : Option (List (String × String)))
    (bt2 bt3 : BackendTable) :
    List.Perm ((run cfg load bt2 bt3).map FinalRow.original_value)
      (exact_matching cfg.query cfg.corpus ++ nonExactList cfg) := by
  rw [run_eq, List.map_append, List.map_append, List.map_map, List.map_map,
    List.map_map]
  have h1 : (mkExactRows cfg).map (FinalRow.original_value ∘ FinalRow.s1)
      = exact_matching cfg.query cfg.corpus := by
    unfold mkExactRows
    rw [List.map_map]
    rw [show ((FinalRow.original_value ∘ FinalRow.s1) ∘ exactRowFor cfg)
      = fun q => q from rfl]
    exact List.map_id' _
  have h2 : ((nonExactList cfg).filter (fun q => !(escalates cfg load bt2 q))).map
        (FinalRow.original_value ∘ fun q => FinalRow.s23 (rowFor 2 cfg load bt2 q))
      = (nonExactList cfg).filter (fun q => !(escalates cfg load bt2 q)) := by
    rw [show (FinalRow.original_value ∘ fun q => FinalRow.s23 (rowFor 2 cfg load bt2 q))
      = fun q => q from rfl]
    exact List.map_id' _
  have h3 : ((nonExactList cfg).filter (escalates cfg load bt2)).map
        (FinalRow.original_value ∘ fun q => FinalRow.s23 (rowFor 3 cfg load bt3 q))
      = (nonExactList cfg).filter (escalates cfg load bt2) := by
    rw [show (FinalRow.original_value ∘ fun q => FinalRow.s23 (rowFor 3 cfg load bt3 q))
      = fun q => q from rfl]
    exact List.map_id' _
  rw [h1, h2, h3, List.append_assoc]
  refine List.Perm.append_left _ ?_
  exact List.Perm.trans List.perm_append_comm
    (List.filter_append_perm (escalates cfg load bt2) (nonExactList cfg))

def cfgC1 : Config :=
  { query := [("XYZ"), ("XYZ")], corpus := [], cura_map := fun _ => none,
    topk := 1, s3_enabled := false, s3_threshold := 0 }

def btC1 : BackendTable := { hasTop1 := false, rows := fun _ => none }

/-- C1 counterexample: with the duplicated non-exact query XYZ the final
table holds one row for it, not two, so the multiset of `original_value`
entries differs from the input query multiset. -/
theorem coverage_counterexample :
    ¬ List.Perm ((run cfgC1 none btC1 btC1).map FinalRow.original_value) cfgC1.query
    ∧ ((run cfgC1 none btC1 btC1).map FinalRow.original_value).count ("XYZ") = 1
    ∧ cfgC1.query.count ("XYZ") = 2 := by
  refine ⟨?_, ?_, ?_⟩ <;> decide

/-- C3: a query whose stripped, lowercased form matches a corpus entry
gets a final-table row with stage 1, match_level 1, every top-i score
equal to 1.00 and every top-i match equal to the curated value (the
original query when the curation map has no entry). -/
theorem exact_match_correct (cfg : Config) (load : Option (List (String × String)))
    (bt2 bt3 : BackendTable) (q : String) (hq : q ∈ cfg.query)
    (hc : (cfg.corpus.map stripLower).contains (stripLower q) = true) :
    ∃ er : ExactRow, FinalRow.s1 er ∈ run cfg load bt2 bt3
      ∧ er.original_value = q
      ∧ er.stage = 1
      ∧ er.match_level = 1
      ∧ er.top_scores = List.replicate cfg.topk 1
      ∧ er.top_matches = List.replicate cfg.topk ((cfg.cura_map q).getD q) := by
  refine ⟨exactRowFor cfg q, ?_, rfl, rfl, rfl, rfl, rfl⟩
  rw [run_eq]
  refine List.mem_append.mpr (Or.inl (List.mem_append.mpr (Or.inl ?_)))
  refine List.mem_map.mpr ⟨exactRowFor cfg q, ?_, rfl⟩
  unfold mkExactRows
  exact List.mem_map.mpr ⟨q, List.mem_filter.mpr ⟨hq, hc⟩, rfl⟩

def cfgC3 : Config :=
  { query := [(" Lung Cancer "), ("xyz")], corpus := [("lung cancer")],
    cura_map := fun _ => none, topk := 2, s3_enabled := false, s3_threshold := 0 }

def btC3 : BackendTable := { hasTop1 := true, rows := fun _ => none }

/-- C3 witness: the whitespace- and case-insensitive match of
" Lung Cancer " against the corpus entry lung cancer yields the stage-1
row with both top scores 1 and both top matches the query itself. -/
theorem exact_match_correct_witness :
    ∃ er : ExactRow, FinalRow.s1 er ∈ run cfgC3 none btC3 btC3
      ∧ er.original_value = (" Lung Cancer ")
      ∧ er.stage = 1
      ∧ er.match_level = 1
      ∧ er.top_scores = List.replicate cfgC3.topk 1
      ∧ er.top_matches = List.replicate cfgC3.topk
          ((cfgC3.cura_map (" Lung Cancer ")).getD (" Lung Cancer ")) :=
  exact_match_correct cfgC3 none btC3 btC3 (" Lung Cancer ")
    (by decide) (by decide)

/-- C5: with stage 3 configured but no `top1_score` column in the
stage-2 backend output, the run terminates normally with exactly the
stage-1 rows followed by the stage-2 rows, and the stage-3 model is
never constructed. -/
theorem degradation_missing_score (cfg : Config)
    (load : Option (List (String × String))) (bt2 bt3 : BackendTable)
    (hs3 : cfg.s3_enabled = true) (htop : bt2.hasTop1 = false) :
    run cfg load bt2 bt3
      = (mkExactRows cfg).map FinalRow.s1 ++ (s2Res cfg load bt2).map FinalRow.s23
    ∧ stage3Invoked cfg load bt2 = false := by
  constructor
  · unfold run
    by_cases h1 : (nonExactList cfg).isEmpty = true
    · rw [if_pos h1]
      have he : nonExactList cfg = [] := List.isEmpty_iff.mp h1
      simp [s2Res, mkStageRows, he]
    · rw [if_neg h1]
      rw [if_neg (by rw [hs3]; decide)]
      rw [if_pos (by rw [htop]; rfl)]
  · unfold stage3Invoked
    rw [htop]
    simp

def cfgC5 : Config :=
  { query := [("a"), ("b")], corpus := [("a")], cura_map := fun _ => none,
    topk := 1, s3_enabled := true, s3_threshold := 1 }

def btC5 : BackendTable :=
  { hasTop1 := false,
    rows := fun q => if q = ("b") then some { top1_score := none, extra := [] } else none }

def btC5b : BackendTable := { hasTop1 := true, rows := fun _ => none }

/-- C5 witness: stage 3 configured, no `top1_score` column in the
stage-2 output; the run still returns stage-1 plus stage-2 rows and
stage 3 is not invoked. -/
theorem degradation_missing_score_witness :
    run cfgC5 none btC5 btC5b
      = (mkExactRows cfgC5).map FinalRow.s1 ++ (s2Res cfgC5 none btC5).map FinalRow.s23
    ∧ stage3Invoked cfgC5 none btC5 = false :=
  degradation_missing_score cfgC5 none btC5 btC5b rfl rfl

/-- C7: every query handed to stage 2 or stage 3 keeps a row in that
stage's merged table keyed by its `original_value`; when the backend
output has no row for the expanded query, the merged row carries null
backend fields instead of disappearing. -/
theorem left_join_preservation (cfg : Config)
    (load : Option (List (String × String))) (bt2 bt3 : BackendTable)
    (q : String) :
    (q ∈ nonExactList cfg →
      ∃ r ∈ s2Res cfg load bt2,
        r.original_value = q ∧ r.updated_value = expandQuery load q
        ∧ (bt2.rows (expandQuery load q) = none → r.backend = none))
    ∧ (q ∈ queriesForS3 cfg load bt2 →
      ∃ r ∈ mkStageRows 3 cfg load bt3 (queriesForS3 cfg load bt2),
        r.original_value = q ∧ r.updated_value = expandQuery load q
        ∧ (bt3.rows (expandQuery load q) = none → r.backend = none)) := by
  constructor
  · intro hq
    refine ⟨rowFor 2 cfg load bt2 q, ?_, rfl, rfl, fun h => h⟩
    unfold s2Res mkStageRows
    exact List.mem_map.mpr ⟨q, hq, rfl⟩
  · intro hq
    refine ⟨rowFor 3 cfg load bt3 q, ?_, rfl, rfl, fun h => h⟩
    unfold mkStageRows
    exact List.mem_map.mpr ⟨q, hq, rfl⟩

/-- C2: when stage 3 is configured and the stage-2 output has a
`top1_score` column, every stage-2 row with coerced score below the
threshold is dropped from the final table and replaced by a stage-3 row
with the same `original_value`; every stage-2 row at or above the
threshold is kept unchanged. -/
theorem escalation_correct (cfg : Config)
    (load : Option (List (String × String))) (bt2 bt3 : BackendTable)
    (r : ResRow) (hs3 : cfg.s3_enabled = true) (htop : bt2.hasTop1 = true)
    (hr : r ∈ s2Res cfg load bt2) :
    (coerceTop1 r < cfg.s3_threshold →
      FinalRow.s23 r ∉ run cfg load bt2 bt3
      ∧ ∃ r3 : ResRow, FinalRow.s23 r3 ∈ run cfg load bt2 bt3
          ∧ r3.stage = 3 ∧ r3.original_value = r.original_value)
    ∧ (cfg.s3_threshold ≤ coerceTop1 r →
      FinalRow.s23 r ∈ run cfg load bt2 bt3) := by
  obtain ⟨q, hq, rfl⟩ := (mem_s2Res cfg load bt2 r).mp hr
  constructor
  · intro hlow
    have hq3 : q ∈ queriesForS3 cfg load bt2 :=
      (mem_queriesForS3 cfg load bt2 q).mpr ⟨hq, hlow⟩
    have hinv : stage3Invoked cfg load bt2 = true := by
      unfold stage3Invoked
      rw [hs3, htop,
        show (nonExactList cfg).isEmpty = false from by
          rw [List.isEmpty_eq_false]; exact List.ne_nil_of_mem hq,
        show (queriesForS3 cfg load bt2).isEmpty = false from by
          rw [List.isEmpty_eq_false]; exact List.ne_nil_of_mem hq3]
      rfl
    have hescq : escalates cfg load bt2 q = true := by
      unfold escalates
      rw [hinv, Bool.true_and]
      exact decide_eq_true hlow
    constructor
    · rw [run_eq]
      intro hmem
      rcases List.mem_append.mp hmem with hm | hm3
      · rcases List.mem_append.mp hm with hm1 | hm2
        · rcases List.mem_map.mp hm1 with ⟨er, _, heq⟩
          exact FinalRow.noConfusion heq
        · rcases List.mem_map.mp hm2 with ⟨q2, hq2, heq⟩
          rw [FinalRow.s23.injEq] at heq
          have hq2q : q2 = q := congrArg ResRow.original_value heq
          rw [hq2q] at hq2
          have hh := List.of_mem_filter hq2
          rw [hescq] at hh
          simp at hh
      · rcases List.mem_map.mp hm3 with ⟨q3, _, heq⟩
        rw [FinalRow.s23.injEq] at heq
        have hs : (3 : Nat) = 2 := congrArg ResRow.stage heq
        exact absurd hs (by decide)
    · refine ⟨rowFor 3 cfg load bt3 q, ?_, rfl, rfl⟩
      rw [run_eq]
      refine List.mem_append.mpr (Or.inr ?_)
      exact List.mem_map.mpr ⟨q, List.mem_filter.mpr ⟨hq, hescq⟩, rfl⟩
  · intro hge
    have hescq : escalates cfg load bt2 q = false := by
      unfold escalates
      rw [decide_eq_false (not_lt.mpr hge), Bool.and_false]
    rw [run_eq]
    refine List.mem_append.mpr (Or.inl (List.mem_append.mpr (Or.inr ?_)))
    refine List.mem_map.mpr ⟨q, List.mem_filter.mpr ⟨hq, ?_⟩, rfl⟩
    rw [hescq]
    rfl

def cfgC2 : Config :=
  { query := [("a"), ("b")], corpus := [("a")], cura_map := fun _ => none,
    topk := 1, s3_enabled := true, s3_threshold := 1 }

def btC2 : BackendTable :=
  { hasTop1 := true,
    rows := fun q => if q = ("b") then some { top1_score := some 0, extra := [] } else none }

def btC2b : BackendTable :=
  { hasTop1 := true,
    rows := fun q => if q = ("b") then some { top1_score := some 1, extra := [] } else none }

/-- C2 witness: the stage-2 row for b scores 0, below the threshold 1,
so it is dropped from the final table and a stage-3 row with the same
`original_value` replaces it. -/
theorem escalation_correct_witness :
    FinalRow.s23 (rowFor 2 cfgC2 none btC2 ("b")) ∉ run cfgC2 none btC2 btC2b
    ∧ ∃ r3 : ResRow, FinalRow.s23 r3 ∈ run cfgC2 none btC2 btC2b
        ∧ r3.stage = 3
        ∧ r3.original_value = (rowFor 2 cfgC2 none btC2 ("b")).original_value :=
  (escalation_correct cfgC2 none btC2 btC2b (rowFor 2 cfgC2 none btC2 ("b"))
    rfl rfl (by decide)).1 (by decide)

/-- C4: no query string carries two different `stage` tags in the final
table, and every input query has at least one row there. -/
theorem stage_exclusivity (cfg : Config)
    (load : Option (List (String × String))) (bt2 bt3 : BackendTable) :
    (∀ r1 ∈ run cfg load bt2 bt3, ∀ r2 ∈ run cfg load bt2 bt3,
        r1.original_value = r2.original_value → r1.stage = r2.stage)
    ∧ (∀ q ∈ cfg.query, ∃ r ∈ run cfg load bt2 bt3, r.original_value = q) := by
  constructor
  · intro r1 hr1 r2 hr2 horig
    rcases run_row_origin cfg load bt2 bt3 r1 hr1 with
      ⟨hs1, _, hc1⟩ | ⟨hs1, hm1, he1⟩ | ⟨hs1, hm1, he1⟩ <;>
      rcases run_row_origin cfg load bt2 bt3 r2 hr2 with
        ⟨hs2, _, hc2⟩ | ⟨hs2, hm2, he2⟩ | ⟨hs2, hm2, he2⟩
    · rw [hs1, hs2]
    · rw [horig] at hc1
      rw [not_norm_match_of_mem_nonExact cfg r2.original_value hm2] at hc1
      exact Bool.noConfusion hc1
    · rw [horig] at hc1
      rw [not_norm_match_of_mem_nonExact cfg r2.original_value hm2] at hc1
      exact Bool.noConfusion hc1
    · rw [← horig] at hc2
      rw [not_norm_match_of_mem_nonExact cfg r1.original_value hm1] at hc2
      exact Bool.noConfusion hc2
    · rw [hs1, hs2]
    · rw [horig, he2] at he1
      exact Bool.noConfusion he1
    · rw [← horig] at hc2
      rw [not_norm_match_of_mem_nonExact cfg r1.original_value hm1] at hc2
      exact Bool.noConfusion hc2
    · rw [horig, he2] at he1
      exact Bool.noConfusion he1
    · rw [hs1, hs2]
  · intro q hq
    by_cases hc : (cfg.corpus.map stripLower).contains (stripLower q) = true
    · refine ⟨FinalRow.s1 (exactRowFor cfg q), ?_, rfl⟩
      rw [run_eq]
      refine List.mem_append.mpr (Or.inl (List.mem_append.mpr (Or.inl ?_)))
      refine List.mem_map.mpr ⟨exactRowFor cfg q, ?_, rfl⟩
      unfold mkExactRows
      exact List.mem_map.mpr ⟨q, List.mem_filter.mpr ⟨hq, hc⟩, rfl⟩
    · have hnx : q ∈ nonExactList cfg := by
        unfold nonExactList
        rw [mem_setdiff1d]
        refine ⟨hq, fun hmem => ?_⟩
        unfold exact_matching at hmem
        exact hc (List.mem_filter.mp hmem).2
      by_cases hesc : escalates cfg load bt2 q = true
      · refine ⟨FinalRow.s23 (rowFor 3 cfg load bt3 q), ?_, rfl⟩
        rw [run_eq]
        refine List.mem_append.mpr (Or.inr ?_)
        exact List.mem_map.mpr ⟨q, List.mem_filter.mpr ⟨hnx, hesc⟩, rfl⟩
      · refine ⟨FinalRow.s23 (rowFor 2 cfg load bt2 q), ?_, rfl⟩
        rw [run_eq]
        refine List.mem_append.mpr (Or.inl (List.mem_append.mpr (Or.inr ?_)))
        refine List.mem_map.mpr ⟨q, List.mem_filter.mpr ⟨hnx, ?_⟩, rfl⟩
        rw [Bool.not_eq_true] at hesc
        rw [hesc]
        rfl

/-- C10: the stage-2 hand-off list is strictly sorted (ascending
code-point lexicographic order) and duplicate-free, holds exactly the
non-exact queries, is insensitive to order and multiplicity of the
input list, and consequently the stage-2 and stage-3 rows of the final
table have pairwise distinct `original_value` entries. -/
theorem nonexact_dedup_sorted (cfg : Config)
    (load : Option (List (String × String))) (bt2 bt3 : BackendTable) :
    (nonExactList cfg).Sorted sLt
    ∧ (nonExactList cfg).Nodup
    ∧ (∀ q, q ∈ nonExactList cfg ↔
        q ∈ cfg.query ∧ q ∉ exact_matching cfg.query cfg.corpus)
    ∧ (∀ query2 : List String, (∀ x, x ∈ query2 ↔ x ∈ cfg.query) →
        setdiff1d query2 (exact_matching query2 cfg.corpus) = nonExactList cfg)
    ∧ (((run cfg load bt2 bt3).filter (fun r => decide (¬ r.stage = 1))).map
        FinalRow.original_value).Nodup := by
  refine ⟨sorted_sLt_setdiff1d _ _, nodup_setdiff1d _ _,
    fun q => mem_setdiff1d _ _ q, ?_, ?_⟩
  · intro query2 hsame
    unfold nonExactList
    apply setdiff1d_ext
    · exact hsame
    · intro x
      unfold exact_matching
      rw [List.mem_filter, List.mem_filter]
      exact and_congr_left (fun _ => hsame x)
  · rw [run_eq]
    rw [List.filter_append, List.filter_append]
    have hpart1 : ((mkExactRows cfg).map FinalRow.s1).filter
        (fun r => decide (¬ r.stage = 1)) = [] := by
      rw [List.filter_eq_nil_iff]
      intro x hx
      rcases List.mem_map.mp hx with ⟨er, her, heq⟩
      unfold mkExactRows at her
      rcases List.mem_map.mp her with ⟨qq, _, heq2⟩
      subst heq
      subst heq2
      intro hb
      simp [FinalRow.stage, exactRowFor] at hb
    have hpart2 : (((nonExactList cfg).filter
          (fun q => !(escalates cfg load bt2 q))).map
          (fun q => FinalRow.s23 (rowFor 2 cfg load bt2 q))).filter
            (fun r => decide (¬ r.stage = 1))
        = ((nonExactList cfg).filter (fun q => !(escalates cfg load bt2 q))).map
          (fun q => FinalRow.s23 (rowFor 2 cfg load bt2 q)) := by
      rw [List.filter_eq_self]
      intro x hx
      rcases List.mem_map.mp hx with ⟨qq, _, heq⟩
      subst heq
      rfl
    have hpart3 : (((nonExactList cfg).filter (escalates cfg load bt2)).map
          (fun q => FinalRow.s23 (rowFor 3 cfg load bt3 q))).filter
            (fun r => decide (¬ r.stage = 1))
        = ((nonExactList cfg).filter (escalates cfg load bt2)).map
          (fun q => FinalRow.s23 (rowFor 3 cfg load bt3 q)) := by
      rw [List.filter_eq_self]
      intro x hx
      rcases List.mem_map.mp hx with ⟨qq, _, heq⟩
      subst heq
      rfl
    rw [hpart1, hpart2, hpart3]
    rw [List.nil_append, List.map_append, List.map_map, List.map_map]
    rw [show (FinalRow.original_value ∘ fun q => FinalRow.s23 (rowFor 2 cfg load bt2 q))
      = fun q => q from rfl]
    rw [show (FinalRow.original_value ∘ fun q => FinalRow.s23 (rowFor 3 cfg load bt3 q))
      = fun q => q from rfl]
    rw [List.map_id', List.map_id']
    refine List.Nodup.append ?_ ?_ ?_
    · exact List.Nodup.filter _ (nodup_setdiff1d _ _)
    · exact List.Nodup.filter _ (nodup_setdiff1d _ _)
    · intro x hx1 hx2
      have h1 := (List.mem_filter.mp hx1).2
      have h2 := (List.mem_filter.mp hx2).2
      rw [h2] at h1
      simp at h1

/-- C6 counterexample: with the lookup table unavailable the resolver
maps the string " a " (which has no table entry) to its trimmed form a,
not to itself, so the degraded resolver is not the identity mapping. -/
theorem abbrev_resolver_counterexample :
    map_shortname_to_fullname none ([(" a ")]) = [((" a "), ("a"))]
    ∧ ("a") ≠ (" a ") := by
  constructor
  · rfl
  · decide

/-- C6 (amended): the resolver returns a mapping whose domain is exactly
the given strings; each string maps to the table entry of its trimmed
form when one exists and to its trimmed form otherwise, and on load
failure every given string maps to its trimmed form (identity only up
to whitespace trimming). -/
theorem abbrev_resolver_amended (load : Option (List (String × String)))
    (l : List String) :
    (∀ q, (∃ p ∈ map_shortname_to_fullname load l, p.1 = q) ↔ q ∈ l)
    ∧ (∀ q ∈ l, (map_shortname_to_fullname load l).lookup q
        = some ((loadDict load (pyStrip q)).getD (pyStrip q)))
    ∧ (∀ p ∈ map_shortname_to_fullname none l, p.2 = pyStrip p.1) := by
  refine ⟨?_, ?_, ?_⟩
  · intro q
    constructor
    · rintro ⟨p, hp, hpq⟩
      unfold map_shortname_to_fullname at hp
      rcases List.mem_map.mp hp with ⟨q2, hq2, heq⟩
      rw [← hpq, ← heq]
      exact (mem_pyDictKeys q2 l).mp hq2
    · intro hq
      refine ⟨(q, expandQuery load q), ?_, rfl⟩
      unfold map_shortname_to_fullname
      exact List.mem_map.mpr ⟨q, (mem_pyDictKeys q l).mpr hq, rfl⟩
  · intro q hq
    exact lookup_map_shortname_to_fullname load l q hq
  · intro p hp
    unfold map_shortname_to_fullname at hp
    rcases List.mem_map.mp hp with ⟨q2, _, heq⟩
    rw [← heq]
    rfl

def dfC8 : DF :=
  { cols := [("official_label")],
    rows := [[(("official_label"), Cell.str ("x"))]] }

def dfC8raw : DF :=
  { cols := [("official_label")],
    rows := [[(("official_label"), Cell.raw ("1"))],
             [(("official_label"), Cell.str ("1"))]] }

def outC8raw : DF :=
  { cols := [("official_label")],
    rows := [[(("official_label"), Cell.str ("1"))],
             [(("official_label"), Cell.str ("1"))]] }

def outC8raw2 : DF :=
  { cols := [("official_label")],
    rows := [[(("official_label"), Cell.str ("1"))]] }

/-- C8 counterexample: a reference table whose `official_label` column
holds the non-string value 1 and the string 1.  `drop_duplicates` runs
on the raw values (the two rows differ there) and `astype(str)` then
renders both keys as the string 1, so the first normalization returns
two rows with identical stringified keys; normalizing that output again
drops one of them: the row count changes from 2 to 1, refuting
idempotence as claimed. -/
theorem normalize_idempotent_counterexample :
    normalize_df dfC8raw false = Except.ok outC8raw
    ∧ normalize_df outC8raw false = Except.ok outC8raw2
    ∧ outC8raw.rows.length = 2
    ∧ outC8raw2.rows.length = 1 := by
  refine ⟨rfl, rfl, rfl, rfl⟩

/-- C8 (amended): re-normalizing normalizer output (same flag) never
fails and adds no columns; its rows are a sublist of the first output
(a row is dropped exactly when `astype(str)` gave two rows the same
stringified key tuple, having deduplicated the raw values first); the
result is a fixpoint of the normalizer, so from the second application
on the normalizer is idempotent; and when the first output's key tuples
are pairwise distinct, re-normalization returns the identical table. -/
theorem normalize_renormalize (df : DF) (need : Bool) (out : DF)
    (h : normalize_df df need = Except.ok out) :
    ∃ out2 : DF, normalize_df out need = Except.ok out2
      ∧ out2.cols = out.cols
      ∧ out2.rows.Sublist out.rows
      ∧ normalize_df out2 need = Except.ok out2
      ∧ (out.rows.Pairwise (fun a b =>
            (normKeep need).map (getCol a) ≠ (normKeep need).map (getCol b)) →
          out2 = out) := by
  obtain ⟨hoff, hcl, rows0, hout⟩ := normalize_df_ok_shape df need out h
  have hstab : ∀ r ∈ out.rows,
      Stabilized ("official_label") r
      ∧ (out.cols.contains ("clean_code") = true → Stabilized ("clean_code") r) := by
    intro r hr
    have hrows := congrArg DF.rows hout
    rw [hrows] at hr
    exact normFinish_rows_stab out.cols rows0 need r hr
  refine ⟨DF.mk out.cols
      (dedupBy (fun r => (normKeep need).map (getCol r)) out.rows),
    normalize_df_renorm_core out need hoff hcl hstab, rfl,
    dedupBy_sublist (fun r => (normKeep need).map (getCol r)) out.rows, ?_, ?_⟩
  · have hstab2 : ∀ r ∈ (DF.mk out.cols
        (dedupBy (fun r => (normKeep need).map (getCol r)) out.rows)).rows,
        Stabilized ("official_label") r
        ∧ ((DF.mk out.cols
            (dedupBy (fun r => (normKeep need).map (getCol r)) out.rows)).cols.contains
              ("clean_code") = true → Stabilized ("clean_code") r) := by
      intro r hr
      exact hstab r (mem_of_mem_dedupByAux _ _ _ _ hr)
    have hcore := normalize_df_renorm_core
      (DF.mk out.cols (dedupBy (fun r => (normKeep need).map (getCol r)) out.rows))
      need hoff hcl hstab2
    dsimp only at hcore
    rw [dedupBy_eq_self (fun r => (normKeep need).map (getCol r)) _
      (pairwise_dedupBy (fun r => (normKeep need).map (getCol r)) out.rows)] at hcore
    exact hcore
  · intro hpw
    rw [dedupBy_eq_self (fun r => (normKeep need).map (getCol r)) out.rows hpw]

/-- C8 witness: a one-row all-string table; re-normalization returns it
unchanged and is a fixpoint. -/
theorem normalize_renormalize_witness :
    ∃ out2 : DF, normalize_df dfC8 false = Except.ok out2
      ∧ out2.cols = dfC8.cols
      ∧ out2.rows.Sublist dfC8.rows
      ∧ normalize_df out2 false = Except.ok out2
      ∧ (dfC8.rows.Pairwise (fun a b =>
            (normKeep false).map (getCol a) ≠ (normKeep false).map (getCol b)) →
          out2 = dfC8) :=
  normalize_renormalize dfC8 false dfC8 (by rfl)

theorem contains_append_ne (l : List String) (x y : String)
    (h : l.contains y = false) (hne : y ≠ x) : (l ++ [x]).contains y = false := by
  cases hc : (l ++ [x]).contains y with
  | false => rfl
  | true =>
    rcases List.mem_append.mp (List.elem_iff.mp hc) with hm | hm
    · have hct : l.contains y = true := List.elem_iff.mpr hm
      rw [hct] at h
      exact Bool.noConfusion h
    · exact absurd (List.mem_singleton.mp hm) hne

def dfC9 : DF :=
  { cols := [("label"), ("obo_id")],
    rows := [[(("label"), Cell.str ("x")), (("obo_id"), Cell.str ("MONDO:D123"))]] }

/-- C9 counterexample: for the obo_id value MONDO:D123 the claimed
pattern (one letter followed by digits) would extract D123 and keep the
row; the code extracts only the literal letter C followed by digits, so
the derived clean_code is null and the row is dropped: the normalizer
returns zero rows here. -/
theorem clean_code_counterexample :
    normalize_df dfC9 true
      = Except.ok { cols := [("label"), ("obo_id"), ("official_label"), ("clean_code")],
                    rows := [] }
    ∧ extractCodeStr ("MONDO:D123") = none := by
  constructor
  · rfl
  · rfl

/-- Every surviving row of the clean-code-deriving branch carries a
successfully extracted code, and keeps its `obo_id` value. -/
theorem clean_code_rows_trace (cols1 : List String) (rows1 : List Row) :
    ∀ r ∈ (normFinish (cols1 ++ [("clean_code")])
        (rows1.map (fun r => setCol r ("clean_code")
          (match extractCodeStr (cellToStr (getCol r ("obo_id"))) with
           | some code => Cell.str code
           | none => Cell.null))) true).rows,
      ∃ code, extractCodeStr (cellToStr (getCol r ("obo_id"))) = some code
        ∧ getCol r ("clean_code") = Cell.str code := by
  intro r hr
  unfold normFinish at hr
  dsimp only at hr
  rw [if_pos (contains_append_self cols1 ("clean_code"))] at hr
  unfold astypeCol at hr
  rw [List.map_map, List.mem_map] at hr
  obtain ⟨r4, hr4, heq⟩ := hr
  simp only [Function.comp_apply] at heq
  have hr3 := mem_of_mem_dedupByAux _ _ _ _ hr4
  obtain ⟨hrD, hPr⟩ := List.mem_filter.mp hr3
  rcases List.mem_map.mp hrD with ⟨r1, _, heqD⟩
  have hclmem : ("clean_code") ∈ normKeep true :=
    List.mem_cons_of_mem _ (List.mem_cons_self _ _)
  have hcl4 : getCol r4 ("clean_code") ≠ Cell.null :=
    of_decide_eq_true (List.all_eq_true.mp hPr ("clean_code") hclmem)
  have hval : getCol r4 ("clean_code")
      = (match extractCodeStr (cellToStr (getCol r1 ("obo_id"))) with
         | some code => Cell.str code
         | none => Cell.null) := by
    rw [← heqD, getCol_setCol_self]
  have hobo4 : getCol r4 ("obo_id") = getCol r1 ("obo_id") := by
    rw [← heqD, getCol_setCol_ne _ _ _ _ (by decide)]
  cases hx : extractCodeStr (cellToStr (getCol r1 ("obo_id"))) with
  | none =>
    rw [hx] at hval
    exact absurd hval hcl4
  | some code =>
    have hobor : getCol r ("obo_id") = getCol r1 ("obo_id") := by
      rw [← heq, getCol_setCol_ne _ _ _ _ (by decide),
        getCol_setCol_ne _ _ _ _ (by decide)]
      exact hobo4
    refine ⟨code, ?_, ?_⟩
    · rw [hobor, hx]
    · rw [hx] at hval
      rw [← heq, getCol_setCol_self, getCol_setCol_ne _ _ _ _ (by decide), hval]
      rfl

/-- C9 (amended): when a code is required and `clean_code` is absent,
the normalizer fails with a configuration error if `obo_id` is also
absent; when `obo_id` is present it derives `clean_code` for every
surviving row by extracting the first occurrence of the literal letter
C followed by digits from the stringified `obo_id` (not an arbitrary
letter, and a prefix is not required), and rows yielding no such
substring are dropped as nulls. -/
theorem clean_code_amended (df : DF)
    (hclean : df.cols.contains ("clean_code") = false) :
    (df.cols.contains ("obo_id") = false →
      df.cols.contains ("official_label") = true →
      normalize_df df true = Except.error
        ("DataFrame must contain clean_code or obo_id for RAG/RAG_BIE strategies"))
    ∧ (df.cols.contains ("obo_id") = true →
      ∀ out, normalize_df df true = Except.ok out →
        ∀ r ∈ out.rows, ∃ code,
          extractCodeStr (cellToStr (getCol r ("obo_id"))) = some code
          ∧ getCol r ("clean_code") = Cell.str code) := by
  constructor
  · intro hnobo hoff
    unfold normalize_df
    have e1 : normStep1 df = Except.ok df := by
      unfold normStep1
      rw [if_pos hoff]
    rw [e1]
    dsimp only
    have e2 : normStep2 df true = Except.error
        ("DataFrame must contain clean_code or obo_id for RAG/RAG_BIE strategies") := by
      unfold normStep2
      rw [if_pos rfl, if_neg (by rw [hclean]; decide), if_neg (by rw [hnobo]; decide)]
    rw [e2]
  · intro hobo out h r hr
    unfold normalize_df at h
    cases e1 : normStep1 df with
    | error e =>
      rw [e1] at h
      exact Except.noConfusion h
    | ok df1 =>
      rw [e1] at h
      dsimp only at h
      have hcols1 : df1.cols = df.cols ∨ df1.cols = df.cols ++ [("official_label")] := by
        unfold normStep1 at e1
        by_cases ho : df.cols.contains ("official_label") = true
        · rw [if_pos ho] at e1
          cases e1
          exact Or.inl rfl
        · rw [if_neg ho] at e1
          by_cases hl : df.cols.contains ("label") = true
          · rw [if_pos hl] at e1
            cases e1
            exact Or.inr rfl
          · rw [if_neg hl] at e1
            exact Except.noConfusion e1
      have hclean1 : df1.cols.contains ("clean_code") = false := by
        rcases hcols1 with hc1 | hc1 <;> rw [hc1]
        · exact hclean
        · exact contains_append_ne _ _ _ hclean (by decide)
      have hobo1 : df1.cols.contains ("obo_id") = true := by
        rcases hcols1 with hc1 | hc1 <;> rw [hc1]
        · exact hobo
        · exact contains_append_mono _ _ _ hobo
      have e2 : normStep2 df1 true = Except.ok
          { cols := df1.cols ++ [("clean_code")],
            rows := df1.rows.map (fun r => setCol r ("clean_code")
              (match extractCodeStr (cellToStr (getCol r ("obo_id"))) with
               | some code => Cell.str code
               | none => Cell.null)) } := by
        unfold normStep2
        rw [if_pos rfl, if_neg (by rw [hclean1]; decide), if_pos hobo1]
      rw [e2] at h
      dsimp only at h
      rw [Except.ok.injEq] at h
      subst h
      exact clean_code_rows_trace df1.cols df1.rows r hr

def dfC9b : DF :=
  { cols := [("official_label"), ("obo_id")],
    rows := [[(("official_label"), Cell.str ("x")),
              (("obo_id"), Cell.str ("NCIT:C156482"))]] }

/-- C9 witness: a table with official_label and obo_id NCIT:C156482;
the amended claim instantiated there (its surviving row carries the
extracted code C156482). -/
theorem clean_code_amended_witness :
    (dfC9b.cols.contains ("obo_id") = false →
      dfC9b.cols.contains ("official_label") = true →
      normalize_df dfC9b true = Except.error
        ("DataFrame must contain clean_code or obo_id for RAG/RAG_BIE strategies"))
    ∧ (dfC9b.cols.contains ("obo_id") = true →
      ∀ out, normalize_df dfC9b true = Except.ok out →
        ∀ r ∈ out.rows, ∃ code,
          extractCodeStr (cellToStr (getCol r ("obo_id"))) = some code
          ∧ getCol r ("clean_code") = Cell.str code) :=
  clean_code_amended dfC9b (by decide)
